import Mathlib

/-!
Verification of the go-migrate migration runner (src/migrations.go).

The embedding models the runner over an explicit database state.  A Go
time.Time is a pair of wall-clock seconds and nanoseconds; Date().Before
compares lexicographically and Date().Unix() returns the seconds.  The
database driver is modelled by an environment of failure oracles: when an
oracle returns none the statement behaves honestly (the INSERT appends a
row to the migrations table, the DELETE removes the matching rows, the
SELECT delivers exactly the stored rows); when it returns some e the
statement fails with error e, exactly at the point where the Go code
checks the returned error.  A transaction is a snapshot of the database
state; commit makes the snapshot durable, rollback discards it.  Schema
changes performed by one Up or Down increment are an opaque transformation
of the schema component, which may fail, mirroring the func type of the
increments.  Go slice indexing out of range (a runtime panic) is modelled
by the runners returning none.
-/

namespace GoMigrate

/-- Model of a Go time.Time value: seconds since the Unix epoch plus a
nanosecond part. -/
structure Time where
  sec : Int
  nsec : Int
deriving DecidableEq, Repr

/-- Go time.Time.Before: lexicographic comparison of seconds then
nanoseconds. -/
def timeBefore (a b : Time) : Bool :=
  a.sec < b.sec || (a.sec == b.sec && a.nsec < b.nsec)

/-- A migration unit: name, creation date, and the up and down increments.
The increments act on the schema component of the transaction and may
fail, as in the Go Migration interface. -/
structure Migration where
  name : String
  date : Time
  up : List String → Except String (List String)
  down : List String → Except String (List String)

/-- MigrationList, a slice of Migration. -/
abbrev MigrationList := List Migration

/-- Go string slicing s[:n] in the character model of strings. -/
def strTake (s : String) (n : Nat) : String :=
  String.mk (s.data.take n)

/-- dbName converts the migration to the name stored in the ran migrations
table: Sprintf of Unix seconds, an underscore and the name, truncated to
500 characters. -/
def dbName (mig : Migration) : String :=
  let migStr := toString mig.date.sec ++ "_" ++ mig.name
  let n := migStr.length
  let n2 := if n > 500 then 500 else n
  strTake migStr n2

/-- The sort relation used by sort.Sort on MigrationList: a is allowed
before b when Less b a is false, that is when Date of b is not before
Date of a. -/
def migLE (a b : Migration) : Prop :=
  timeBefore b.date a.date = false

/-- Strict date order between migrations, for the distinct-dates case. -/
def migLT (a b : Migration) : Prop :=
  timeBefore a.date b.date = true

instance : DecidableRel migLE := fun a b => by
  unfold migLE
  exact inferInstance

instance : IsTotal Migration migLE := by
  constructor
  intro a b
  unfold migLE timeBefore
  simp only [Bool.or_eq_false_iff, Bool.and_eq_false_iff, decide_eq_false_iff_not,
    beq_eq_false_iff_ne, ne_eq]
  omega

instance : IsTrans Migration migLE := by
  constructor
  intro a b c hab hbc
  unfold migLE timeBefore at *
  simp only [Bool.or_eq_false_iff, Bool.and_eq_false_iff, decide_eq_false_iff_not,
    beq_eq_false_iff_ne, ne_eq] at *
  omega

/-- sortMigrations creates a date sorted migration slice; the caller slice
is left untouched (the Go code sorts a defensive copy). -/
def sortMigrations (migs : MigrationList) : MigrationList :=
  List.insertionSort migLE migs

/-- Persistent database state: whether the migrations table exists, the
abstract schema (a log of applied schema changes), and the rows of the
migrations tracking table. -/
structure DB where
  tableExists : Bool
  schema : List String
  tracking : List String
deriving DecidableEq, Repr

/-- A progress notification: the Go code logs the tracking key, a position
number and the batch total after each successful step. -/
structure Progress where
  name : String
  pos : Int
  total : Int
deriving DecidableEq, Repr

/-- Failure oracles of the database driver.  A none answer means the
statement succeeds with the honest SQL semantics. -/
structure DBEnv where
  createErr : DB → Option String
  queryErr : DB → Option String
  insertErr : String → DB → Option String
  deleteErr : String → DB → Option String
  commitErr : DB → Option String

/-- The honest driver: every statement succeeds. -/
def envH : DBEnv :=
  ⟨fun _ => none, fun _ => none, fun _ _ => none, fun _ _ => none, fun _ => none⟩

/-- One row delivered by the applied-set cursor: either a scanned string,
or a row whose Scan failed (the Go code discards the Scan error, leaving
the zero value of the name variable). -/
inductive RowRead where
  | ok (migration : String) : RowRead
  | scanErr : RowRead
deriving DecidableEq, Repr

/-- The name the Go loop ends up inserting into the hasRun map for a
delivered row: the scanned string, or the zero value on a Scan failure. -/
def rowName : RowRead → String
  | .ok s => s
  | .scanErr => ""

/-- Outcome of iterating the applied-set cursor: the rows Next delivered
before returning false, and the value Err would report afterwards (which
the Go code never checks). -/
structure QueryResult where
  rows : List RowRead
  cursorErr : Option String
deriving DecidableEq, Repr

/-- needsToRun lists which of the given migrations needs to be run, given
the outcome of the SELECT on the migrations table: on a query error it
aborts with that error; otherwise it builds the hasRun set from the
delivered rows and keeps the candidates whose dbName is absent, in input
order. -/
def needsToRun (q : Except String QueryResult) (migs : MigrationList) :
    Except String MigrationList :=
  match q with
  | .error e => .error e
  | .ok qr =>
    let hasRun := qr.rows.map rowName
    .ok (migs.filter (fun m => !(hasRun.contains (dbName m))))

/-- checkMigrationTable creates the migrations table if it does not exist;
on an exec error the error is returned and the state is unchanged. -/
def checkMigrationTable (env : DBEnv) (db : DB) : Option String × DB :=
  match env.createErr db with
  | some e => (some e, db)
  | none => (none, { db with tableExists := true })

/-- The outcome of SELECT star FROM migrations under the driver model: a
query error if the oracle injects one, otherwise exactly the stored
tracking rows, all scanning cleanly, with no cursor error. -/
def queryApplied (env : DBEnv) (db : DB) : Except String QueryResult :=
  match env.queryErr db with
  | some e => .error e
  | none => .ok ⟨db.tracking.map RowRead.ok, none⟩

/-- One iteration of the up loop body: run the Up increment (on failure
the error is wrapped with the tracking key), then the INSERT of the
tracking key (on failure the driver error is returned as is). -/
def upStep (env : DBEnv) (m : Migration) (tx : DB) : Except String DB :=
  match m.up tx.schema with
  | .error e => .error ("Failed to up " ++ dbName m ++ ": " ++ e)
  | .ok s =>
    match env.insertErr (dbName m) { tx with schema := s } with
    | some e => .error e
    | none => .ok { tx with schema := s, tracking := tx.tracking ++ [dbName m] }

/-- One iteration of the down loop body: run the Down increment (on
failure the error is wrapped with the tracking key), then the DELETE of
the tracking key (on failure the driver error is returned as is). -/
def downStep (env : DBEnv) (m : Migration) (tx : DB) : Except String DB :=
  match m.down tx.schema with
  | .error e => .error ("Failed to down " ++ dbName m ++ ": " ++ e)
  | .ok s =>
    match env.deleteErr (dbName m) { tx with schema := s } with
    | some e => .error e
    | none =>
      .ok { tx with schema := s, tracking := tx.tracking.filter (fun r => r != dbName m) }

/-- The up loop of migrateUpN: fuel counts the remaining iterations
(toNat of n minus the steps already taken), i is the running index.  An
index beyond the slice is the Go panic, modelled as none.  Each successful
step appends the progress notification the Go code logs: tracking key,
i plus one, and the batch total. -/
def upLoop (env : DBEnv) (sorted : MigrationList) (total : Int) :
    Nat → Nat → DB → List Progress → Option (Except String DB × List Progress)
  | 0, _, tx, log => some (.ok tx, log)
  | fuel + 1, i, tx, log =>
    match sorted[i]? with
    | none => none
    | some m =>
      match upStep env m tx with
      | .error e => some (.error e, log)
      | .ok tx2 =>
        upLoop env sorted total fuel (i + 1) tx2 (log ++ [⟨dbName m, (i : Int) + 1, total⟩])

/-- migrateUpN runs N up increments inside one transaction over the date
sorted list: on any step error the transaction is rolled back (the
persistent state stays db) and the error is returned; otherwise the
transaction commits, unless the commit itself fails. -/
def migrateUpN (env : DBEnv) (db : DB) (migs : MigrationList) (n : Int) :
    Option (Option String × DB × List Progress) :=
  match upLoop env (sortMigrations migs) n n.toNat 0 db [] with
  | none => none
  | some (.error e, log) => some (some e, db, log)
  | some (.ok tx, log) =>
    match env.commitErr tx with
    | some e => some (some e, db, log)
    | none => some (none, tx, log)

/-- The down loop of migrateDownN: walks the sorted list from the last
index backwards for n iterations; a negative index is the Go panic,
modelled as none.  Each successful step appends the progress notification
the Go code logs: tracking key, the current index i, and the batch
total. -/
def downLoop (env : DBEnv) (sorted : MigrationList) (total : Int) :
    Nat → Int → DB → List Progress → Option (Except String DB × List Progress)
  | 0, _, tx, log => some (.ok tx, log)
  | fuel + 1, i, tx, log =>
    if i < 0 then none
    else
      match sorted[i.toNat]? with
      | none => none
      | some m =>
        match downStep env m tx with
        | .error e => some (.error e, log)
        | .ok tx2 =>
          downLoop env sorted total fuel (i - 1) tx2 (log ++ [⟨dbName m, i, total⟩])

/-- migrateDownN runs N down increments inside one transaction, from the
end of the date sorted list backwards, with the same rollback and commit
behaviour as migrateUpN. -/
def migrateDownN (env : DBEnv) (db : DB) (migs : MigrationList) (n : Int) :
    Option (Option String × DB × List Progress) :=
  let sorted := sortMigrations migs
  match downLoop env sorted n n.toNat ((sorted.length : Int) - 1) db [] with
  | none => none
  | some (.error e, log) => some (some e, db, log)
  | some (.ok tx, log) =>
    match env.commitErr tx with
    | some e => some (some e, db, log)
    | none => some (none, tx, log)

/-- Migrate runs all migration up increments in date order: ensure the
migrations table exists, compute the unapplied subset, and run all of it
with migrateUpN, passing the length of that subset as N. -/
def Migrate (env : DBEnv) (db : DB) (migs : MigrationList) :
    Option (Option String × DB × List Progress) :=
  match checkMigrationTable env db with
  | (some e, db2) => some (some e, db2, [])
  | (none, db2) =>
    match needsToRun (queryApplied env db2) migs with
    | .error e => some (some e, db2, [])
    | .ok toRun => migrateUpN env db2 toRun (toRun.length : Int)

/-- The composed tracking key before truncation: Unix seconds, an
underscore, then the migration name. -/
def keyString (mig : Migration) : String :=
  toString mig.date.sec ++ "_" ++ mig.name

/-- Runs k successive up loop bodies starting at index i of the sorted
list, with no iteration bound: used to phrase the hypothesis that the
first k increments of a batch succeed. -/
def upRunFrom (env : DBEnv) (sorted : MigrationList) : Nat → Nat → DB → Option (Except String DB)
  | _, 0, tx => some (.ok tx)
  | i, k + 1, tx =>
    match sorted[i]? with
    | none => none
    | some m =>
      match upStep env m tx with
      | .error e => some (.error e)
      | .ok tx2 => upRunFrom env sorted (i + 1) k tx2

/-- The progress notifications a fully successful up loop emits, starting
at index i with the given remaining fuel. -/
def upEvents (sorted : MigrationList) (total : Int) : Nat → Nat → List Progress
  | _, 0 => []
  | i, fuel + 1 =>
    match sorted[i]? with
    | none => []
    | some m => ⟨dbName m, (i : Int) + 1, total⟩ :: upEvents sorted total (i + 1) fuel

/-- The progress notifications a fully successful down loop emits,
starting at index i with the given remaining fuel. -/
def downEvents (sorted : MigrationList) (total : Int) : Nat → Int → List Progress
  | 0, _ => []
  | fuel + 1, i =>
    if i < 0 then []
    else
      match sorted[i.toNat]? with
      | none => []
      | some m => ⟨dbName m, i, total⟩ :: downEvents sorted total fuel (i - 1)

/-- Concrete migration for witnesses: name a, date 0 seconds, both
increments succeed without touching the schema. -/
def mA : Migration := ⟨"a", ⟨0, 0⟩, fun s => .ok s, fun s => .ok s⟩

/-- Concrete migration for witnesses: name b, date 1 second. -/
def mB : Migration := ⟨"b", ⟨1, 0⟩, fun s => .ok s, fun s => .ok s⟩

/-- A migration distinct from mA (different nanoseconds) that derives the
same tracking key 0_a. -/
def mA2 : Migration := ⟨"a", ⟨0, 5⟩, fun s => .ok s, fun s => .ok s⟩

/-- A migration whose Up increment always fails with error x. -/
def mFail : Migration := ⟨"a", ⟨0, 0⟩, fun _ => .error "x", fun s => .ok s⟩

/-- A migration whose composed key is 600 characters long: one digit,
one underscore, and 598 letters. -/
def mLong : Migration :=
  ⟨String.mk (List.replicate 598 'a'), ⟨0, 0⟩, fun s => .ok s, fun s => .ok s⟩

/-- Fresh database: no table, no schema, no tracking rows. -/
def db0 : DB := ⟨false, [], []⟩

/-- Database where migration mA is already tracked. -/
def dbA : DB := ⟨true, [], ["0_a"]⟩

/-- Driver whose INSERT always fails with error boom. -/
def envInsBoom : DBEnv :=
  ⟨fun _ => none, fun _ => none, fun _ _ => some "boom", fun _ _ => none, fun _ => none⟩

/-- Driver whose DELETE always fails with error boom. -/
def envDelBoom : DBEnv :=
  ⟨fun _ => none, fun _ => none, fun _ _ => none, fun _ _ => some "boom", fun _ => none⟩

theorem length_strTake (s : String) (n : Nat) : (strTake s n).length = min n s.length :=
  List.length_take n s.data

theorem dbName_eq_take (m : Migration) : dbName m = strTake (keyString m) 500 := by
  unfold dbName keyString strTake
  by_cases h : (toString m.date.sec ++ "_" ++ m.name).length > 500
  · simp only [h, if_true]
  · simp only [h, if_false]
    congr 1
    have h1 : (toString m.date.sec ++ "_" ++ m.name).length
        = (toString m.date.sec ++ "_" ++ m.name).data.length := rfl
    rw [h1, List.take_length, List.take_of_length_le (h1 ▸ Nat.le_of_not_lt h)]

theorem needsToRun_ok (qr : QueryResult) (migs : MigrationList) :
    needsToRun (.ok qr) migs
      = .ok (migs.filter (fun m => !((qr.rows.map rowName).contains (dbName m)))) := rfl

theorem upStep_ok_spec (env : DBEnv) (m : Migration) (tx tx2 : DB)
    (h : upStep env m tx = .ok tx2) :
    ∃ s, m.up tx.schema = .ok s ∧
      env.insertErr (dbName m) { tx with schema := s } = none ∧
      tx2 = { tx with schema := s, tracking := tx.tracking ++ [dbName m] } := by
  unfold upStep at h
  split at h
  · exact Except.noConfusion h
  · rename_i s hu
    split at h
    · exact Except.noConfusion h
    · rename_i hi
      injection h with h2
      exact ⟨s, hu, hi, h2.symm⟩

theorem downStep_ok_spec (env : DBEnv) (m : Migration) (tx tx2 : DB)
    (h : downStep env m tx = .ok tx2) :
    ∃ s, m.down tx.schema = .ok s ∧
      env.deleteErr (dbName m) { tx with schema := s } = none ∧
      tx2 = { tx with schema := s, tracking := tx.tracking.filter (fun r => r != dbName m) } := by
  unfold downStep at h
  split at h
  · exact Except.noConfusion h
  · rename_i s hd
    split at h
    · exact Except.noConfusion h
    · rename_i hi
      injection h with h2
      exact ⟨s, hd, hi, h2.symm⟩

/-- C4: the tracking key computed by dbName is the string of the Unix
seconds of the date, an underscore and the name, truncated to at most 500
characters, truncating exactly at the boundary (a 600 character composed
key keeps exactly its first 500 characters); the runner inserts and
deletes exactly this key and reconciliation compares exactly this key, so
already-applied checks stay consistent. -/
theorem dbName_key_truncation (m : Migration) :
    dbName m = strTake (keyString m) 500
  ∧ (dbName m).length ≤ 500
  ∧ ((keyString m).length = 600 →
      (dbName m).length = 500 ∧ dbName m = strTake (keyString m) 500)
  ∧ (∀ env tx tx2, upStep env m tx = .ok tx2 → tx2.tracking = tx.tracking ++ [dbName m])
  ∧ (∀ env tx tx2, downStep env m tx = .ok tx2 →
      tx2.tracking = tx.tracking.filter (fun r => r != dbName m))
  ∧ (∀ qr : QueryResult, needsToRun (.ok qr) [m] = .ok [] ↔ dbName m ∈ qr.rows.map rowName) := by
  refine ⟨dbName_eq_take m, ?_, ?_, ?_, ?_, ?_⟩
  · rw [dbName_eq_take m, length_strTake]
    exact Nat.min_le_left _ _
  · intro h600
    refine ⟨?_, dbName_eq_take m⟩
    rw [dbName_eq_take m, length_strTake, h600]
    omega
  · intro env tx tx2 h
    obtain ⟨s, _, _, rfl⟩ := upStep_ok_spec env m tx tx2 h
    rfl
  · intro env tx tx2 h
    obtain ⟨s, _, _, rfl⟩ := downStep_ok_spec env m tx tx2 h
    rfl
  · intro qr
    rw [needsToRun_ok]
    constructor
    · intro h
      have h2 : [m].filter (fun x => !((qr.rows.map rowName).contains (dbName x))) = [] := by
        injection h
      have h3 := List.filter_eq_nil_iff.mp h2 m (by simp)
      cases hcc : (qr.rows.map rowName).contains (dbName m) with
      | false => exact absurd (by rw [hcc]; rfl) h3
      | true => exact List.elem_iff.mp hcc
    · intro hmem
      have hc : (qr.rows.map rowName).contains (dbName m) = true := List.elem_iff.mpr hmem
      congr 1
      apply List.filter_eq_nil_iff.mpr
      intro a ha
      have ham : a = m := by simpa using ha
      subst ham
      rw [hc]
      simp

set_option maxRecDepth 40000 in
/-- Witness for C4 at a migration whose composed key has exactly 600
characters, and at concrete write steps. -/
theorem dbName_key_truncation_witness :
    (dbName mLong).length = 500
  ∧ (⟨false, [], [dbName mLong]⟩ : DB).tracking = db0.tracking ++ [dbName mLong]
  ∧ (⟨false, [], []⟩ : DB).tracking = db0.tracking.filter (fun r => r != dbName mLong) :=
  ⟨((dbName_key_truncation mLong).2.2.1 (by decide)).1,
   (dbName_key_truncation mLong).2.2.2.1 envH db0 ⟨false, [], [dbName mLong]⟩ rfl,
   (dbName_key_truncation mLong).2.2.2.2.1 envH db0 ⟨false, [], []⟩ rfl⟩

theorem timeBefore_of_not (t u : Time) (h : timeBefore u t = false) (hne : t ≠ u) :
    timeBefore t u = true := by
  cases t with
  | mk s1 n1 =>
    cases u with
    | mk s2 n2 =>
      have hne2 : s1 ≠ s2 ∨ n1 ≠ n2 := by
        by_contra hcon
        push_neg at hcon
        exact hne (by rw [hcon.1, hcon.2])
      unfold timeBefore at *
      simp only [Bool.or_eq_false_iff, Bool.and_eq_false_iff, decide_eq_false_iff_not,
        beq_eq_false_iff_ne, ne_eq] at h
      simp only [Bool.or_eq_true, Bool.and_eq_true, decide_eq_true_eq, beq_iff_eq]
      omega

/-- C5: sortMigrations returns a permutation of the input collection that
is non-decreasing in date, strictly ascending when all dates are
distinct; the input list is a value and is not mutated (the embedding is
pure, matching the defensive copy in the source). -/
theorem sortMigrations_sorted_by_date (migs : MigrationList) :
    List.Perm (sortMigrations migs) migs
  ∧ List.Sorted migLE (sortMigrations migs)
  ∧ ((migs.map (fun m => m.date)).Nodup → List.Pairwise migLT (sortMigrations migs)) := by
  refine ⟨List.perm_insertionSort migLE migs, List.sorted_insertionSort migLE migs, ?_⟩
  intro hnd
  have hperm : List.Perm (sortMigrations migs) migs := List.perm_insertionSort migLE migs
  have hnd2 : ((sortMigrations migs).map (fun m => m.date)).Nodup :=
    ((hperm.map (fun m => m.date)).nodup_iff).mpr hnd
  have hne : (sortMigrations migs).Pairwise (fun a b => a.date ≠ b.date) :=
    List.pairwise_map.mp hnd2
  have hs : (sortMigrations migs).Pairwise migLE := List.sorted_insertionSort migLE migs
  refine (hs.and hne).imp ?_
  intro a b hab
  exact timeBefore_of_not a.date b.date hab.1 hab.2

/-- Witness for C5 on a concrete two-element list with distinct dates. -/
theorem sortMigrations_sorted_by_date_witness :
    List.Perm (sortMigrations [mB, mA]) [mB, mA]
  ∧ List.Sorted migLE (sortMigrations [mB, mA])
  ∧ List.Pairwise migLT (sortMigrations [mB, mA]) :=
  ⟨(sortMigrations_sorted_by_date [mB, mA]).1,
   (sortMigrations_sorted_by_date [mB, mA]).2.1,
   (sortMigrations_sorted_by_date [mB, mA]).2.2 (by decide)⟩

/-- C2: reconciliation returns exactly the candidates whose tracking key
is not among the read applied keys, as a sublist of the input (original
relative order, no sorting), and a second run on the same table state
returns the same result. -/
theorem needsToRun_unapplied_subset (qr : QueryResult) (migs l : MigrationList)
    (h : needsToRun (.ok qr) migs = .ok l) :
    List.Sublist l migs
  ∧ (∀ m, m ∈ l ↔ (m ∈ migs ∧ dbName m ∉ qr.rows.map rowName))
  ∧ needsToRun (.ok qr) migs = .ok l := by
  have h2 : migs.filter (fun m => !((qr.rows.map rowName).contains (dbName m))) = l := by
    rw [needsToRun_ok] at h
    injection h
  refine ⟨h2 ▸ List.filter_sublist migs, ?_, h⟩
  intro m
  rw [← h2, List.mem_filter]
  constructor
  · rintro ⟨hm, hp⟩
    refine ⟨hm, fun hmem => ?_⟩
    have hcc : (qr.rows.map rowName).contains (dbName m) = true := List.elem_iff.mpr hmem
    rw [hcc] at hp
    exact absurd hp (by decide)
  · rintro ⟨hm, hnm⟩
    refine ⟨hm, ?_⟩
    cases hcc : (qr.rows.map rowName).contains (dbName m) with
    | true => exact absurd (List.elem_iff.mp hcc) hnm
    | false => rfl

/-- Witness for C2: with key 1_b applied, only mA needs to run. -/
theorem needsToRun_unapplied_subset_witness :
    List.Sublist [mA] [mA, mB]
  ∧ (mA ∈ [mA] ↔ (mA ∈ [mA, mB] ∧ dbName mA ∉ ([RowRead.ok "1_b"].map rowName)))
  ∧ needsToRun (.ok ⟨[RowRead.ok "1_b"], none⟩) [mA, mB] = .ok [mA] :=
  ⟨(needsToRun_unapplied_subset ⟨[RowRead.ok "1_b"], none⟩ [mA, mB] [mA] rfl).1,
   (needsToRun_unapplied_subset ⟨[RowRead.ok "1_b"], none⟩ [mA, mB] [mA] rfl).2.1 mA,
   (needsToRun_unapplied_subset ⟨[RowRead.ok "1_b"], none⟩ [mA, mB] [mA] rfl).2.2⟩

/-- C6 counterexample: a delivered row whose Scan fails and a cursor that
ends in an error do not make needsToRun abort: it still returns ok, so
the claim that every read failure aborts with the underlying error is
false on the code. -/
theorem read_errors_swallowed_cex :
    needsToRun (.ok ⟨[RowRead.scanErr], some "io"⟩) [mA] = .ok [mA]
  ∧ needsToRun (.ok ⟨[RowRead.ok "0_a"], some "io"⟩) [mA] = .ok [] :=
  ⟨rfl, rfl⟩

/-- C6 amended: only a failure of the initial query aborts needsToRun
with the underlying error; once the cursor is obtained the function
always returns ok over the delivered rows (a Scan failure contributes the
zero-value name and is otherwise ignored, and the cursor error left for
Err is never consulted), tolerating partial reads. -/
theorem needsToRun_error_propagation :
    (∀ (e : String) (migs : MigrationList), needsToRun (.error e) migs = .error e)
  ∧ (∀ (qr : QueryResult) (migs : MigrationList),
      needsToRun (.ok qr) migs
        = .ok (migs.filter (fun m => !((qr.rows.map rowName).contains (dbName m)))))
  ∧ (∀ (rows : List RowRead) (e : String) (migs : MigrationList),
      needsToRun (.ok ⟨rows, some e⟩) migs = needsToRun (.ok ⟨rows, none⟩) migs) :=
  ⟨fun _ _ => rfl, fun _ _ => rfl, fun _ _ _ => rfl⟩

theorem map_rowName_ok (l : List String) : (l.map RowRead.ok).map rowName = l := by
  induction l with
  | nil => rfl
  | cons a t ih => simp [rowName, ih]

theorem upLoop_ok_spec (env : DBEnv) (sorted : MigrationList) (total : Int) :
    ∀ (fuel i : Nat) (tx : DB) (log : List Progress) (txf : DB) (logf : List Progress),
      upLoop env sorted total fuel i tx log = some (.ok txf, logf) →
      txf.tracking = tx.tracking ++ (((sorted.drop i).take fuel).map dbName)
    ∧ txf.tableExists = tx.tableExists
    ∧ logf = log ++ upEvents sorted total i fuel := by
  intro fuel
  induction fuel with
  | zero =>
    intro i tx log txf logf h
    simp only [upLoop] at h
    injection h with h2
    injection h2 with ha hb
    injection ha with hc
    subst hc
    subst hb
    simp [upEvents]
  | succ fuel ih =>
    intro i tx log txf logf h
    simp only [upLoop] at h
    split at h
    · exact Option.noConfusion h
    · rename_i m hg
      split at h
      · rename_i e he
        injection h with h2
        injection h2 with ha hb
        exact Except.noConfusion ha
      · rename_i tx2 hstep
        obtain ⟨htr, hte, hlog⟩ := ih (i + 1) tx2 (log ++ [⟨dbName m, (i : Int) + 1, total⟩]) txf logf h
        obtain ⟨s, hu, hins, rfl⟩ := upStep_ok_spec env m tx tx2 hstep
        obtain ⟨hlt, hget⟩ := List.getElem?_eq_some.mp hg
        have hdrop : sorted.drop i = m :: sorted.drop (i + 1) := by
          rw [List.drop_eq_getElem_cons hlt, hget]
        refine ⟨?_, hte, ?_⟩
        · rw [htr, hdrop]
          simp [List.take_succ_cons, List.append_assoc]
        · rw [hlog]
          have hev : upEvents sorted total i (fuel + 1)
              = ⟨dbName m, (i : Int) + 1, total⟩ :: upEvents sorted total (i + 1) fuel := by
            simp [upEvents, hg]
          rw [hev]
          simp [List.append_assoc]

theorem mem_sortMigrations {a : Migration} {l : MigrationList} :
    a ∈ sortMigrations l ↔ a ∈ l := by
  unfold sortMigrations
  exact List.mem_insertionSort migLE

theorem migrateUpN_error_state (env : DBEnv) (db : DB) (migs : MigrationList) (n : Int)
    (e : String) (st : DB) (log : List Progress)
    (h : migrateUpN env db migs n = some (some e, st, log)) : st = db := by
  unfold migrateUpN at h
  split at h
  · exact Option.noConfusion h
  · injection h with h2
    injection h2 with ha hb
    injection hb with hc hd
    exact hc.symm
  · split at h
    · injection h with h2
      injection h2 with ha hb
      injection hb with hc hd
      exact hc.symm
    · injection h with h2
      injection h2 with ha hb
      exact Option.noConfusion ha

theorem migrateDownN_error_state (env : DBEnv) (db : DB) (migs : MigrationList) (n : Int)
    (e : String) (st : DB) (log : List Progress)
    (h : migrateDownN env db migs n = some (some e, st, log)) : st = db := by
  simp only [migrateDownN] at h
  split at h
  · exact Option.noConfusion h
  · injection h with h2
    injection h2 with ha hb
    injection hb with hc hd
    exact hc.symm
  · split at h
    · injection h with h2
      injection h2 with ha hb
      injection hb with hc hd
      exact hc.symm
    · injection h with h2
      injection h2 with ha hb
      exact Option.noConfusion ha

theorem migrateUpN_ok_spec (env : DBEnv) (db : DB) (migs : MigrationList) (n : Int)
    (stf : DB) (log : List Progress)
    (h : migrateUpN env db migs n = some (none, stf, log)) :
    upLoop env (sortMigrations migs) n n.toNat 0 db [] = some (.ok stf, log)
  ∧ env.commitErr stf = none := by
  unfold migrateUpN at h
  split at h
  · exact Option.noConfusion h
  · injection h with h2
    injection h2 with ha hb
    exact Option.noConfusion ha
  · rename_i tx log2 heq
    split at h
    · injection h with h2
      injection h2 with ha hb
      exact Option.noConfusion ha
    · rename_i hc2
      injection h with h2
      injection h2 with ha hb
      injection hb with hc hd
      subst hc
      subst hd
      exact ⟨heq, hc2⟩

theorem needsToRun_query_ok (env : DBEnv) (db : DB) (migs toRun : MigrationList)
    (h : needsToRun (queryApplied env db) migs = .ok toRun) :
    needsToRun (.ok ⟨db.tracking.map RowRead.ok, none⟩) migs = .ok toRun := by
  unfold queryApplied at h
  split at h
  · rename_i e hq
    have hrfl : needsToRun (.error e) migs = .error e := rfl
    rw [hrfl] at h
    exact Except.noConfusion h
  · exact h

theorem Migrate_ok_spec (env : DBEnv) (db : DB) (migs : MigrationList) (dbf : DB)
    (log : List Progress) (h : Migrate env db migs = some (none, dbf, log)) :
    ∃ toRun, needsToRun (.ok ⟨db.tracking.map RowRead.ok, none⟩) migs = .ok toRun
      ∧ dbf.tracking = db.tracking ++ (sortMigrations toRun).map dbName
      ∧ dbf.tableExists = true := by
  unfold Migrate at h
  split at h
  · injection h with h2
    injection h2 with ha hb
    exact Option.noConfusion ha
  · rename_i db2 heq
    have hdb2 : db2 = { db with tableExists := true } := by
      unfold checkMigrationTable at heq
      split at heq
      · simp at heq
      · injection heq with u1 u2
        exact u2.symm
    subst hdb2
    split at h
    · injection h with h2
      injection h2 with ha hb
      exact Option.noConfusion ha
    · rename_i toRun heq2
      have hrec := needsToRun_query_ok env _ migs toRun heq2
      obtain ⟨hloop, hcommit⟩ := migrateUpN_ok_spec env _ toRun _ dbf log h
      obtain ⟨htr, hte, hlog⟩ :=
        upLoop_ok_spec env (sortMigrations toRun) _ _ 0 _ [] dbf log hloop
      refine ⟨toRun, hrec, ?_, hte⟩
      rw [htr]
      have hlen : (sortMigrations toRun).length = toRun.length :=
        (List.perm_insertionSort migLE toRun).length_eq
      have htoNat : ((toRun.length : Int)).toNat = toRun.length := rfl
      rw [List.drop_zero, htoNat, ← hlen, List.take_length]

/-- C9 counterexample: two distinct units (different nanoseconds) derive
the same tracking key 0_a; starting from a duplicate-free (empty)
tracking table, Migrate runs both and inserts the key twice, so the
no-duplicates invariant is not preserved for same-key candidate
collections. -/
theorem duplicate_keys_inserted_cex :
    db0.tracking.Nodup
  ∧ Migrate envH db0 [mA, mA2]
      = some (none, ⟨true, [], ["0_a", "0_a"]⟩, [⟨"0_a", 1, 2⟩, ⟨"0_a", 2, 2⟩])
  ∧ ¬ (["0_a", "0_a"].Nodup) :=
  ⟨by decide, by decide, by decide⟩

/-- C9 amended: if the candidates derive pairwise distinct tracking keys,
then a successful Migrate maps a duplicate-free tracking table to a
duplicate-free tracking table; with colliding candidate keys the code
inserts duplicates, since reconciliation reads the applied set once and
never re-checks within the batch. -/
theorem migrate_preserves_nodup (env : DBEnv) (db : DB) (migs : MigrationList)
    (dbf : DB) (log : List Progress)
    (h : Migrate env db migs = some (none, dbf, log))
    (hkeys : (migs.map dbName).Nodup) (hdb : db.tracking.Nodup) :
    dbf.tracking.Nodup := by
  obtain ⟨toRun, hrec, htr, _⟩ := Migrate_ok_spec env db migs dbf log h
  obtain ⟨hsub, hmem, _⟩ := needsToRun_unapplied_subset _ migs toRun hrec
  rw [htr, List.nodup_append]
  refine ⟨hdb, ?_, ?_⟩
  · have h1 : ((sortMigrations toRun).map dbName).Perm (toRun.map dbName) :=
      (List.perm_insertionSort migLE toRun).map dbName
    have h2 : (toRun.map dbName).Sublist (migs.map dbName) := hsub.map dbName
    exact h1.nodup_iff.mpr (hkeys.sublist h2)
  · intro a ha hb
    obtain ⟨m, hm, rfl⟩ := List.mem_map.mp hb
    have hm2 : m ∈ toRun := mem_sortMigrations.mp hm
    have hprop := (hmem m).mp hm2
    rw [map_rowName_ok] at hprop
    exact hprop.2 ha

/-- Witness for C9: two distinct-key migrations on a fresh database leave
a duplicate-free tracking table. -/
theorem migrate_preserves_nodup_witness :
    (⟨true, [], ["0_a", "1_b"]⟩ : DB).tracking.Nodup :=
  migrate_preserves_nodup envH db0 [mA, mB] ⟨true, [], ["0_a", "1_b"]⟩
    [⟨"0_a", 1, 2⟩, ⟨"1_b", 2, 2⟩] (by decide) (by decide) (by decide)

theorem Migrate_error_state (env : DBEnv) (db : DB) (migs : MigrationList) (e : String)
    (dbf : DB) (log : List Progress)
    (h : Migrate env db migs = some (some e, dbf, log)) :
    dbf.tracking = db.tracking ∧ dbf.schema = db.schema := by
  unfold Migrate at h
  split at h
  · rename_i e2 db2 heq
    have hdb2 : db2 = db := by
      unfold checkMigrationTable at heq
      split at heq
      · injection heq with u1 u2
        exact u2.symm
      · simp at heq
    injection h with h2
    injection h2 with ha hb
    injection hb with hc hd
    subst hdb2
    rw [← hc]
    exact ⟨rfl, rfl⟩
  · rename_i db2 heq
    have hdb2 : db2 = { db with tableExists := true } := by
      unfold checkMigrationTable at heq
      split at heq
      · simp at heq
      · injection heq with u1 u2
        exact u2.symm
    split at h
    · injection h with h2
      injection h2 with ha hb
      injection hb with hc hd
      subst hdb2
      rw [← hc]
      exact ⟨rfl, rfl⟩
    · rename_i toRun heq2
      have hst := migrateUpN_error_state env db2 toRun _ e dbf log h
      subst hdb2
      rw [hst]
      exact ⟨rfl, rfl⟩

theorem migrateUpN_nil (env : DBEnv) (db : DB) :
    migrateUpN env db ([] : MigrationList) ((([] : MigrationList).length : Nat) : Int)
      = match env.commitErr db with
        | some e => some (some e, db, ([] : List Progress))
        | none => some (none, db, ([] : List Progress)) := rfl

/-- C3: after a successful Migrate, running Migrate again on the resulting
database with the same candidates applies nothing: the state is returned
unchanged and no progress events are emitted; and after a run that ended
in an error, nothing was durably recorded, so reconciliation over the
resulting tracking table computes the same unapplied set as over the
original one. -/
theorem migrate_second_run_applies_nothing :
    (∀ env db migs dbf log r2,
        Migrate env db migs = some (none, dbf, log) →
        Migrate env dbf migs = some r2 →
        r2.2.1 = dbf ∧ r2.2.2 = ([] : List Progress))
  ∧ (∀ env db migs e dbf log,
        Migrate env db migs = some (some e, dbf, log) →
        dbf.tracking = db.tracking
      ∧ needsToRun (.ok ⟨dbf.tracking.map RowRead.ok, none⟩) migs
          = needsToRun (.ok ⟨db.tracking.map RowRead.ok, none⟩) migs) := by
  constructor
  · intro env db migs dbf log r2 h1 h2
    obtain ⟨toRun, hrec, htr, hte⟩ := Migrate_ok_spec env db migs dbf log h1
    obtain ⟨hsub, hmem, _⟩ := needsToRun_unapplied_subset _ migs toRun hrec
    have hall : ∀ m ∈ migs, dbName m ∈ dbf.tracking := by
      intro m hm
      rw [htr]
      by_cases hc : dbName m ∈ db.tracking
      · exact List.mem_append_left _ hc
      · have hmr : m ∈ toRun := (hmem m).mpr ⟨hm, by rw [map_rowName_ok]; exact hc⟩
        exact List.mem_append_right _
          (List.mem_map.mpr ⟨m, mem_sortMigrations.mpr hmr, rfl⟩)
    have hte2 : ({ dbf with tableExists := true } : DB) = dbf := by
      cases dbf with
      | mk t s tr =>
        have ht : t = true := hte
        subst ht
        rfl
    unfold Migrate at h2
    split at h2
    · rename_i e2 db2 heq
      have hdb2 : db2 = dbf := by
        unfold checkMigrationTable at heq
        split at heq
        · injection heq with u1 u2
          exact u2.symm
        · simp at heq
      injection h2 with hh
      subst hh
      exact ⟨hdb2, rfl⟩
    · rename_i db2 heq
      have hdb2 : db2 = dbf := by
        unfold checkMigrationTable at heq
        split at heq
        · simp at heq
        · injection heq with u1 u2
          rw [← u2, hte2]
      subst hdb2
      split at h2
      · rename_i e2 heq2
        injection h2 with hh
        subst hh
        exact ⟨rfl, rfl⟩
      · rename_i toRun2 heq2
        have h3 := needsToRun_query_ok env db2 migs toRun2 heq2
        obtain ⟨_, hmem2, _⟩ := needsToRun_unapplied_subset _ migs toRun2 h3
        have hnil : toRun2 = [] := by
          cases htR : toRun2 with
          | nil => rfl
          | cons mh mt =>
            have hmh : mh ∈ toRun2 := by
              rw [htR]
              exact List.mem_cons_self _ _
            have hp := (hmem2 mh).mp hmh
            rw [map_rowName_ok] at hp
            exact absurd (hall mh hp.1) hp.2
        subst hnil
        rw [migrateUpN_nil] at h2
        split at h2
        · injection h2 with hh
          subst hh
          exact ⟨rfl, rfl⟩
        · injection h2 with hh
          subst hh
          exact ⟨rfl, rfl⟩
  · intro env db migs e dbf log h
    have hs := Migrate_error_state env db migs e dbf log h
    exact ⟨hs.1, by rw [hs.1]⟩

/-- Witness for C3: a successful run on a fresh database followed by a
second run that changes nothing, and a failing run that leaves the
tracking table untouched. -/
theorem migrate_second_run_applies_nothing_witness :
    (((none : Option String), (⟨true, [], ["0_a"]⟩ : DB), ([] : List Progress)).2.1
        = (⟨true, [], ["0_a"]⟩ : DB)
      ∧ ((none : Option String), (⟨true, [], ["0_a"]⟩ : DB), ([] : List Progress)).2.2
        = ([] : List Progress))
  ∧ ((⟨true, [], []⟩ : DB).tracking = db0.tracking
      ∧ needsToRun (.ok ⟨(⟨true, [], []⟩ : DB).tracking.map RowRead.ok, none⟩) [mFail]
          = needsToRun (.ok ⟨db0.tracking.map RowRead.ok, none⟩) [mFail]) :=
  ⟨migrate_second_run_applies_nothing.1 envH db0 [mA] ⟨true, [], ["0_a"]⟩
      [⟨"0_a", 1, 1⟩] ((none : Option String), (⟨true, [], ["0_a"]⟩ : DB), ([] : List Progress))
      (by decide) (by decide),
   migrate_second_run_applies_nothing.2 envH db0 [mFail] "Failed to up 0_a: x"
      ⟨true, [], []⟩ [] (by decide)⟩

theorem upLoop_error_of_fail (env : DBEnv) (sorted : MigrationList) (total : Int) :
    ∀ (k fuel i : Nat) (tx txk : DB) (log : List Progress) (m : Migration) (e : String),
      upRunFrom env sorted i k tx = some (.ok txk) →
      sorted[i + k]? = some m →
      upStep env m txk = .error e →
      k < fuel →
      ∃ logf, upLoop env sorted total fuel i tx log = some (.error e, logf) := by
  intro k
  induction k with
  | zero =>
    intro fuel i tx txk log m e hrun hget hstep hk
    have htx : tx = txk := by
      simp only [upRunFrom, Option.some.injEq, Except.ok.injEq] at hrun
      exact hrun
    subst htx
    cases fuel with
    | zero => omega
    | succ f =>
      refine ⟨log, ?_⟩
      have hget2 : sorted[i]? = some m := by simpa using hget
      simp [upLoop, hget2, hstep]
  | succ k ih =>
    intro fuel i tx txk log m e hrun hget hstep hk
    simp only [upRunFrom] at hrun
    split at hrun
    · exact Option.noConfusion hrun
    · rename_i m0 hg0
      split at hrun
      · injection hrun with h2
        exact Except.noConfusion h2
      · rename_i tx2 hs0
        cases fuel with
        | zero => omega
        | succ f =>
          have hget2 : sorted[(i + 1) + k]? = some m := by
            rw [show (i + 1) + k = i + (k + 1) from by omega]
            exact hget
          obtain ⟨logf, hl⟩ :=
            ih f (i + 1) tx2 txk (log ++ [⟨dbName m0, (i : Int) + 1, total⟩]) m e
              hrun hget2 hstep (by omega)
          refine ⟨logf, ?_⟩
          simp only [upLoop, hg0, hs0]
          exact hl

/-- C1: if the first k up loop iterations of a batch of n succeed and the
iteration at index k fails (the Up increment errors, or the tracking
INSERT errors), with k below n, then migrateUpN rolls the whole
transaction back, the returned persistent state is exactly the input
state (zero tracking rows and zero schema changes from the batch
persist), and a non-nil error is returned. -/
theorem up_failure_rolls_back (env : DBEnv) (db : DB) (migs : MigrationList) (n : Int)
    (k : Nat) (txk : DB) (m : Migration) (e : String)
    (hpre : upRunFrom env (sortMigrations migs) 0 k db = some (.ok txk))
    (hm : (sortMigrations migs)[k]? = some m)
    (hfail : upStep env m txk = .error e)
    (hk : (k : Int) < n) :
    ∃ log, migrateUpN env db migs n = some (some e, db, log) := by
  have hk2 : k < n.toNat := by omega
  obtain ⟨logf, hl⟩ :=
    upLoop_error_of_fail env (sortMigrations migs) n k n.toNat 0 db txk [] m e hpre
      (by simpa using hm) hfail hk2
  refine ⟨logf, ?_⟩
  unfold migrateUpN
  rw [hl]

/-- Witness for C1: a single migration whose Up increment fails at step
zero of a batch of one, on the honest driver. -/
theorem up_failure_rolls_back_witness :
    ∃ log, migrateUpN envH db0 [mFail] 1 = some (some "Failed to up 0_a: x", db0, log) :=
  up_failure_rolls_back envH db0 [mFail] 1 0 db0 mFail "Failed to up 0_a: x"
    rfl rfl rfl (by decide)

/-- C7 counterexample: an INSERT failure (and a DELETE failure) makes the
runner return the driver error boom verbatim: the returned error does not
contain the tracking key 0_a, so it is not wrapped with the offending key
and step context as the claim states (the transaction is still rolled
back). -/
theorem insert_error_not_wrapped_cex :
    migrateUpN envInsBoom db0 [mA] 1 = some (some "boom", db0, [])
  ∧ migrateDownN envDelBoom dbA [mA] 1 = some (some "boom", dbA, [])
  ∧ "boom" ≠ "Failed to up 0_a: boom" ∧ "boom" ≠ "Failed to down 0_a: boom" :=
  ⟨by decide, by decide, by decide, by decide⟩

/-- C7 amended: a tracking-row write failure (INSERT on up, DELETE on
down) rolls back the whole transaction like an increment failure, but the
underlying driver error is returned as is, without the tracking-key and
step-context wrapping that Up and Down increment failures receive. -/
theorem write_failure_rollback_raw :
    (∀ (env : DBEnv) (m : Migration) (tx : DB) (s : List String) (e : String),
        m.up tx.schema = .ok s →
        env.insertErr (dbName m) { tx with schema := s } = some e →
        upStep env m tx = .error e)
  ∧ (∀ (env : DBEnv) (m : Migration) (tx : DB) (s : List String) (e : String),
        m.down tx.schema = .ok s →
        env.deleteErr (dbName m) { tx with schema := s } = some e →
        downStep env m tx = .error e)
  ∧ (∀ (env : DBEnv) (db : DB) (migs : MigrationList) (n : Int) (e : String)
        (st : DB) (log : List Progress),
        migrateUpN env db migs n = some (some e, st, log) → st = db)
  ∧ (∀ (env : DBEnv) (db : DB) (migs : MigrationList) (n : Int) (e : String)
        (st : DB) (log : List Progress),
        migrateDownN env db migs n = some (some e, st, log) → st = db) := by
  refine ⟨?_, ?_, ?_, ?_⟩
  · intro env m tx s e hu hi
    simp [upStep, hu, hi]
  · intro env m tx s e hd hi
    simp [downStep, hd, hi]
  · intro env db migs n e st log h
    exact migrateUpN_error_state env db migs n e st log h
  · intro env db migs n e st log h
    exact migrateDownN_error_state env db migs n e st log h

/-- Witness for C7 amended: concrete INSERT and DELETE failures with the
error boom, and the concrete rollback of the failing up run. -/
theorem write_failure_rollback_raw_witness :
    upStep envInsBoom mA db0 = .error "boom"
  ∧ downStep envDelBoom mA dbA = .error "boom"
  ∧ db0 = db0 :=
  ⟨write_failure_rollback_raw.1 envInsBoom mA db0 [] "boom" rfl rfl,
   write_failure_rollback_raw.2.1 envDelBoom mA dbA [] "boom" rfl rfl,
   write_failure_rollback_raw.2.2.1 envInsBoom db0 [mA] 1 "boom" db0 [] (by decide)⟩

theorem upEvents_get (sorted : MigrationList) (total : Int) :
    ∀ (fuel i j : Nat) (ev : Progress),
      (upEvents sorted total i fuel)[j]? = some ev →
      ∃ m, sorted[i + j]? = some m ∧ ev = ⟨dbName m, (i : Int) + (j : Int) + 1, total⟩ := by
  intro fuel
  induction fuel with
  | zero =>
    intro i j ev h
    simp [upEvents] at h
  | succ fuel ih =>
    intro i j ev h
    simp only [upEvents] at h
    split at h
    · simp at h
    · rename_i m hg
      cases j with
      | zero =>
        rw [List.getElem?_cons_zero] at h
        injection h with h2
        refine ⟨m, by simpa using hg, ?_⟩
        rw [← h2]
        have hpos : (i : Int) + 1 = (i : Int) + ((0 : Nat) : Int) + 1 := by simp
        rw [← hpos]
      | succ j2 =>
        rw [List.getElem?_cons_succ] at h
        obtain ⟨m2, hg2, hev⟩ := ih (i + 1) j2 ev h
        refine ⟨m2, ?_, ?_⟩
        · rw [show i + (j2 + 1) = (i + 1) + j2 from by omega]
          exact hg2
        · rw [hev]
          have hpos : (((i + 1) : Nat) : Int) + (j2 : Int) + 1
              = (i : Int) + (((j2 + 1) : Nat) : Int) + 1 := by
            push_cast
            ring
          rw [hpos]

theorem downEvents_get (sorted : MigrationList) (total : Int) :
    ∀ (fuel : Nat) (i : Int) (j : Nat) (ev : Progress),
      (downEvents sorted total fuel i)[j]? = some ev →
      0 ≤ i - (j : Int)
    ∧ ∃ m, sorted[(i - (j : Int)).toNat]? = some m ∧ ev = ⟨dbName m, i - (j : Int), total⟩ := by
  intro fuel
  induction fuel with
  | zero =>
    intro i j ev h
    simp [downEvents] at h
  | succ fuel ih =>
    intro i j ev h
    simp only [downEvents] at h
    split at h
    · simp at h
    · rename_i hi0
      split at h
      · simp at h
      · rename_i m hg
        cases j with
        | zero =>
          rw [List.getElem?_cons_zero] at h
          injection h with h2
          refine ⟨by omega, m, ?_, ?_⟩
          · rw [show i - ((0 : Nat) : Int) = i from by simp]
            exact hg
          · rw [← h2]
            have hpos : i = i - ((0 : Nat) : Int) := by simp
            rw [← hpos]
        | succ j2 =>
          rw [List.getElem?_cons_succ] at h
          obtain ⟨hge, m2, hg2, hev⟩ := ih (i - 1) j2 ev h
          refine ⟨by omega, m2, ?_, ?_⟩
          · rw [show i - (((j2 + 1) : Nat) : Int) = (i - 1) - (j2 : Int) from by push_cast; ring]
            exact hg2
          · rw [hev]
            have hpos : (i - 1) - (j2 : Int) = i - (((j2 + 1) : Nat) : Int) := by
              push_cast
              ring
            rw [hpos]

theorem downLoop_ok_log (env : DBEnv) (sorted : MigrationList) (total : Int) :
    ∀ (fuel : Nat) (i : Int) (tx : DB) (log : List Progress) (txf : DB) (logf : List Progress),
      downLoop env sorted total fuel i tx log = some (.ok txf, logf) →
      logf = log ++ downEvents sorted total fuel i := by
  intro fuel
  induction fuel with
  | zero =>
    intro i tx log txf logf h
    simp only [downLoop] at h
    injection h with h2
    injection h2 with ha hb
    subst hb
    simp [downEvents]
  | succ fuel ih =>
    intro i tx log txf logf h
    simp only [downLoop] at h
    split at h
    · exact Option.noConfusion h
    · rename_i hneg
      split at h
      · exact Option.noConfusion h
      · rename_i m hg
        split at h
        · injection h with h2
          injection h2 with ha hb
          exact Except.noConfusion ha
        · rename_i tx2 hstep
          have hrec := ih (i - 1) tx2 (log ++ [⟨dbName m, i, total⟩]) txf logf h
          rw [hrec]
          have hev : downEvents sorted total (fuel + 1) i
              = ⟨dbName m, i, total⟩ :: downEvents sorted total fuel (i - 1) := by
            simp [downEvents, hg, hneg]
          rw [hev]
          simp [List.append_assoc]

theorem migrateDownN_ok_spec (env : DBEnv) (db : DB) (migs : MigrationList) (n : Int)
    (stf : DB) (log : List Progress)
    (h : migrateDownN env db migs n = some (none, stf, log)) :
    downLoop env (sortMigrations migs) n n.toNat (((sortMigrations migs).length : Int) - 1) db []
      = some (.ok stf, log) := by
  simp only [migrateDownN] at h
  split at h
  · exact Option.noConfusion h
  · injection h with h2
    injection h2 with ha hb
    exact Option.noConfusion ha
  · rename_i tx log2 heq
    split at h
    · injection h with h2
      injection h2 with ha hb
      exact Option.noConfusion ha
    · injection h with h2
      injection h2 with ha hb
      injection hb with hc hd
      subst hc
      subst hd
      exact heq

/-- C8 counterexample: running down over a single tracked migration (a
batch of one) emits the progress event with position 0, not the 1-based
position 1 of the first successful step, so the down-runner does not emit
1-based positions as claimed. -/
theorem down_progress_not_one_based_cex :
    migrateDownN envH dbA [mA] 1 = some (none, ⟨true, [], []⟩, [⟨"0_a", 0, 1⟩])
  ∧ ((0 : Int) ≠ 1) :=
  ⟨by decide, by decide⟩

/-- C8 amended: after each successful step both runners emit an event
carrying the tracking key and the batch total n; the up-runner's j-th
event carries 1-based position j plus 1, but the down-runner's j-th event
carries the descending zero-based slice index (length minus 1 minus j) of
the migration it just ran, not a 1-based batch position. -/
theorem progress_event_shape :
    (∀ (env : DBEnv) (db : DB) (migs : MigrationList) (n : Int) (tx : DB)
        (log : List Progress) (j : Nat) (ev : Progress),
        migrateUpN env db migs n = some (none, tx, log) →
        log[j]? = some ev →
        ev.total = n ∧ ev.pos = (j : Int) + 1
      ∧ ∃ m, (sortMigrations migs)[j]? = some m ∧ ev.name = dbName m)
  ∧ (∀ (env : DBEnv) (db : DB) (migs : MigrationList) (n : Int) (tx : DB)
        (log : List Progress) (j : Nat) (ev : Progress),
        migrateDownN env db migs n = some (none, tx, log) →
        log[j]? = some ev →
        ev.total = n ∧ ev.pos = (((sortMigrations migs).length : Int) - 1) - (j : Int)
      ∧ ∃ m, (sortMigrations migs)[ev.pos.toNat]? = some m ∧ ev.name = dbName m) := by
  constructor
  · intro env db migs n tx log j ev h hj
    obtain ⟨hloop, _⟩ := migrateUpN_ok_spec env db migs n tx log h
    obtain ⟨_, _, hlog⟩ := upLoop_ok_spec env _ _ _ _ _ _ _ _ hloop
    rw [hlog] at hj
    simp only [List.nil_append] at hj
    obtain ⟨m, hg, hev⟩ := upEvents_get _ _ _ 0 j ev hj
    subst hev
    refine ⟨rfl, by simp, m, by simpa using hg, rfl⟩
  · intro env db migs n tx log j ev h hj
    have hloop := migrateDownN_ok_spec env db migs n tx log h
    have hlog := downLoop_ok_log env _ _ _ _ _ _ _ _ hloop
    rw [hlog] at hj
    simp only [List.nil_append] at hj
    obtain ⟨hge, m, hg, hev⟩ := downEvents_get _ _ _ _ j ev hj
    subst hev
    exact ⟨rfl, rfl, m, hg, rfl⟩

/-- Witness for C8: the concrete up run logs position 1 for its first
event, the concrete down run logs the slice index. -/
theorem progress_event_shape_witness :
    ((⟨"0_a", 1, 1⟩ : Progress).total = 1 ∧ (⟨"0_a", 1, 1⟩ : Progress).pos = ((0 : Nat) : Int) + 1)
  ∧ ((⟨"0_a", 0, 1⟩ : Progress).total = 1
      ∧ (⟨"0_a", 0, 1⟩ : Progress).pos
          = (((sortMigrations [mA]).length : Int) - 1) - (((0 : Nat)) : Int)) :=
  ⟨⟨(progress_event_shape.1 envH db0 [mA] 1 ⟨false, [], ["0_a"]⟩ [⟨"0_a", 1, 1⟩] 0 ⟨"0_a", 1, 1⟩
        (by decide) (by decide)).1,
    (progress_event_shape.1 envH db0 [mA] 1 ⟨false, [], ["0_a"]⟩ [⟨"0_a", 1, 1⟩] 0 ⟨"0_a", 1, 1⟩
        (by decide) (by decide)).2.1⟩,
   ⟨(progress_event_shape.2 envH dbA [mA] 1 ⟨true, [], []⟩ [⟨"0_a", 0, 1⟩] 0 ⟨"0_a", 0, 1⟩
        (by decide) (by decide)).1,
    (progress_event_shape.2 envH dbA [mA] 1 ⟨true, [], []⟩ [⟨"0_a", 0, 1⟩] 0 ⟨"0_a", 0, 1⟩
        (by decide) (by decide)).2.1⟩⟩

theorem upLoop_isSome (env : DBEnv) (sorted : MigrationList) (total : Int) :
    ∀ (fuel i : Nat) (tx : DB) (log : List Progress),
      i + fuel ≤ sorted.length →
      (upLoop env sorted total fuel i tx log).isSome = true := by
  intro fuel
  induction fuel with
  | zero =>
    intro i tx log h
    simp [upLoop]
  | succ fuel ih =>
    intro i tx log h
    have hi : i < sorted.length := by omega
    have hg : sorted[i]? = some sorted[i] := List.getElem?_eq_getElem hi
    cases hs : upStep env sorted[i] tx with
    | error e => simp [upLoop, hg, hs]
    | ok tx2 =>
      simp only [upLoop, hg, hs]
      exact ih (i + 1) tx2 _ (by omega)

theorem upLoop_none_of_overrun (sorted : MigrationList) (total : Int)
    (hup : ∀ m ∈ sorted, ∀ s, ∃ s2, m.up s = .ok s2) :
    ∀ (fuel i : Nat) (tx : DB) (log : List Progress),
      i ≤ sorted.length → sorted.length < i + fuel →
      upLoop envH sorted total fuel i tx log = none := by
  intro fuel
  induction fuel with
  | zero =>
    intro i tx log hle hgt
    omega
  | succ fuel ih =>
    intro i tx log hle hgt
    by_cases hi : i < sorted.length
    · have hg : sorted[i]? = some sorted[i] := List.getElem?_eq_getElem hi
      obtain ⟨s2, hs2⟩ := hup sorted[i] (List.getElem_mem hi) tx.schema
      have hstep : upStep envH sorted[i] tx
          = .ok { tx with schema := s2, tracking := tx.tracking ++ [dbName sorted[i]] } := by
        simp [upStep, hs2, envH]
      simp only [upLoop, hg, hstep]
      exact ih (i + 1) _ _ (by omega) (by omega)
    · have hg : sorted[i]? = none := List.getElem?_eq_none_iff.mpr (by omega)
      simp [upLoop, hg]

theorem downLoop_isSome (env : DBEnv) (sorted : MigrationList) (total : Int) :
    ∀ (fuel : Nat) (i : Int) (tx : DB) (log : List Progress),
      i < (sorted.length : Int) → (fuel : Int) ≤ i + 1 →
      (downLoop env sorted total fuel i tx log).isSome = true := by
  intro fuel
  induction fuel with
  | zero =>
    intro i tx log h1 h2
    simp [downLoop]
  | succ fuel ih =>
    intro i tx log h1 h2
    have hi0 : ¬ i < 0 := by omega
    have hitn : i.toNat < sorted.length := by omega
    have hg : sorted[i.toNat]? = some sorted[i.toNat] := List.getElem?_eq_getElem hitn
    cases hs : downStep env sorted[i.toNat] tx with
    | error e => simp [downLoop, hi0, hg, hs]
    | ok tx2 =>
      simp only [downLoop, if_neg hi0, hg, hs]
      exact ih (i - 1) tx2 _ (by omega) (by omega)

theorem downLoop_none_of_overrun (sorted : MigrationList) (total : Int)
    (hdown : ∀ m ∈ sorted, ∀ s, ∃ s2, m.down s = .ok s2) :
    ∀ (fuel : Nat) (i : Int) (tx : DB) (log : List Progress),
      (-1 : Int) ≤ i → i < (sorted.length : Int) → i + 1 < (fuel : Int) →
      downLoop envH sorted total fuel i tx log = none := by
  intro fuel
  induction fuel with
  | zero =>
    intro i tx log h1 h2 h3
    simp at h3
    omega
  | succ fuel ih =>
    intro i tx log h1 h2 h3
    by_cases hi : i < 0
    · simp [downLoop, if_pos hi]
    · have hitn : i.toNat < sorted.length := by omega
      have hg : sorted[i.toNat]? = some sorted[i.toNat] := List.getElem?_eq_getElem hitn
      obtain ⟨s2, hs2⟩ := hdown sorted[i.toNat] (List.getElem_mem hitn) tx.schema
      have hstep : downStep envH sorted[i.toNat] tx
          = .ok { tx with schema := s2, tracking := tx.tracking.filter (fun r => r != dbName sorted[i.toNat]) } := by
        simp [downStep, hs2, envH]
      simp only [downLoop, if_neg hi, hg, hstep]
      exact ih (i - 1) _ _ (by omega) (by omega) (by push_cast at h3 ⊢; omega)

theorem sortMigrations_length (migs : MigrationList) :
    (sortMigrations migs).length = migs.length :=
  (List.perm_insertionSort migLE migs).length_eq

theorem migrateUpN_isSome (env : DBEnv) (db : DB) (migs : MigrationList) (n : Int)
    (h : n ≤ (migs.length : Int)) : (migrateUpN env db migs n).isSome = true := by
  have hlen := sortMigrations_length migs
  have hl := upLoop_isSome env (sortMigrations migs) n n.toNat 0 db [] (by omega)
  rcases hres : upLoop env (sortMigrations migs) n n.toNat 0 db [] with _ | ⟨e | tx, lg⟩
  · rw [hres] at hl
    simp at hl
  · simp [migrateUpN, hres]
  · cases hce : env.commitErr tx <;> simp [migrateUpN, hres, hce]

theorem migrateDownN_isSome (env : DBEnv) (db : DB) (migs : MigrationList) (n : Int)
    (h : n ≤ (migs.length : Int)) : (migrateDownN env db migs n).isSome = true := by
  have hlen := sortMigrations_length migs
  have hl := downLoop_isSome env (sortMigrations migs) n n.toNat
      (((sortMigrations migs).length : Int) - 1) db [] (by omega) (by omega)
  rcases hres : downLoop env (sortMigrations migs) n n.toNat
      (((sortMigrations migs).length : Int) - 1) db [] with _ | ⟨e | tx, lg⟩
  · rw [hres] at hl
    simp at hl
  · simp [migrateDownN, hres]
  · cases hce : env.commitErr tx <;> simp [migrateDownN, hres, hce]

/-- C10 counterexample: with n below zero the up-runner performs no
iteration and finishes without any out-of-range access although 0 ≤ n
fails, and with a failing first increment it returns an error without
reaching the out-of-range index although n exceeds the list length, so
the claimed biconditional (no out-of-range access exactly when 0 ≤ n ≤
length) is false in both directions. -/
theorem bounds_biconditional_cex :
    (migrateUpN envH db0 ([] : MigrationList) (-1)).isSome = true
  ∧ ¬ (0 ≤ (-1 : Int))
  ∧ (migrateUpN envH db0 [mFail] 2).isSome = true
  ∧ (([mFail] : MigrationList).length : Int) < 2 :=
  ⟨by decide, by decide, by decide, by decide⟩

/-- C10 amended: whenever n is at most the number of supplied migrations
both runners finish without out-of-range access (for every driver and
state, negative n included, since the loops then run no iteration);
conversely when n exceeds the length and every increment succeeds the
runners read past the end of the slice (the modelled panic); Migrate
always calls the up-runner with n equal to the length of the computed
work list and therefore never goes out of range. -/
theorem runner_bounds :
    (∀ (env : DBEnv) (db : DB) (migs : MigrationList) (n : Int),
        n ≤ (migs.length : Int) → (migrateUpN env db migs n).isSome = true)
  ∧ (∀ (env : DBEnv) (db : DB) (migs : MigrationList) (n : Int),
        n ≤ (migs.length : Int) → (migrateDownN env db migs n).isSome = true)
  ∧ (∀ (db : DB) (migs : MigrationList) (n : Int),
        (∀ m ∈ migs, ∀ s, ∃ s2, m.up s = .ok s2) →
        (migs.length : Int) < n → migrateUpN envH db migs n = none)
  ∧ (∀ (db : DB) (migs : MigrationList) (n : Int),
        (∀ m ∈ migs, ∀ s, ∃ s2, m.down s = .ok s2) →
        (migs.length : Int) < n → migrateDownN envH db migs n = none)
  ∧ (∀ (env : DBEnv) (db : DB) (migs : MigrationList),
        (Migrate env db migs).isSome = true) := by
  refine ⟨migrateUpN_isSome, migrateDownN_isSome, ?_, ?_, ?_⟩
  · intro db migs n hup hn
    have hlen := sortMigrations_length migs
    have hup2 : ∀ m ∈ sortMigrations migs, ∀ s, ∃ s2, m.up s = .ok s2 :=
      fun m hm => hup m (mem_sortMigrations.mp hm)
    have hnone := upLoop_none_of_overrun (sortMigrations migs) n hup2 n.toNat 0 db []
      (Nat.zero_le _) (by omega)
    unfold migrateUpN
    rw [hnone]
  · intro db migs n hdown hn
    have hlen := sortMigrations_length migs
    have hdown2 : ∀ m ∈ sortMigrations migs, ∀ s, ∃ s2, m.down s = .ok s2 :=
      fun m hm => hdown m (mem_sortMigrations.mp hm)
    have hnone := downLoop_none_of_overrun (sortMigrations migs) n hdown2 n.toNat
      (((sortMigrations migs).length : Int) - 1) db [] (by omega) (by omega) (by omega)
    simp only [migrateDownN]
    rw [hnone]
  · intro env db migs
    rcases hct : checkMigrationTable env db with ⟨oe, db2⟩
    cases oe with
    | some e => simp [Migrate, hct]
    | none =>
      cases hq : needsToRun (queryApplied env db2) migs with
      | error e => simp [Migrate, hct, hq]
      | ok toRun =>
        simp only [Migrate, hct, hq]
        exact migrateUpN_isSome env db2 toRun _ (le_refl _)

/-- Witness for C10 at a concrete one-element list: safe at n equal to 1,
out of range (none) at n equal to 2 when the increments succeed, and a
Migrate call that always returns. -/
theorem runner_bounds_witness :
    (migrateUpN envH db0 [mA] 1).isSome = true
  ∧ (migrateDownN envH dbA [mA] 1).isSome = true
  ∧ migrateUpN envH db0 [mA] 2 = none
  ∧ migrateDownN envH dbA [mA] 2 = none
  ∧ (Migrate envH db0 [mA]).isSome = true :=
  ⟨runner_bounds.1 envH db0 [mA] 1 (by decide),
   runner_bounds.2.1 envH dbA [mA] 1 (by decide),
   runner_bounds.2.2.1 db0 [mA] 2
     (by
       intro m hm s
       rw [List.mem_singleton.mp hm]
       exact ⟨s, rfl⟩)
     (by decide),
   runner_bounds.2.2.2.1 dbA [mA] 2
     (by
       intro m hm s
       rw [List.mem_singleton.mp hm]
       exact ⟨s, rfl⟩)
     (by decide),
   runner_bounds.2.2.2.2 envH db0 [mA]⟩

end GoMigrate
